import Mathlib

/-!
Verification development for the furigana mapping crate
(src/src/lib.rs, src/src/furigana.rs, src/src/segmentation.rs, src/src/utils.rs).

Strings are modelled as lists of Unicode scalar values (Lean `Char`); the
source's byte-index operations are modelled through explicit UTF-8 byte
counts (`Char.utf8Size`).  A `RunResult` value separates a normal return
from a panic, so that `unreachable!` and out-of-bounds byte slicing are
observable.  `Vec<FuriganaNode>` is encoded as the mutual inductive
`NodeList` so that all recursion stays structural and kernel-computable.
-/

namespace Furi

/-- Result of running a piece of the Rust code: a normal value, or a panic
(from an `unreachable!` or an invalid byte-index slice). -/
inductive RunResult (α : Type) where
  | fault : RunResult α
  | value : α → RunResult α
deriving DecidableEq

/-! ## utils.rs: character classification predicates -/

/-- utils.rs `is_numeric_fullwidth`: the range '０'..='９'. -/
def is_numeric_fullwidth (c : Char) : Bool :=
  '０' ≤ c && c ≤ '９'

/-- utils.rs `is_numeric_west` wraps `char::is_numeric`.  Modelled from the
spec: the exact Unicode extent of each classification predicate is excluded
from the spec (§1 treats them as black-box category oracles), so
`char::is_numeric` is modelled on the decimal digits this repository
distinguishes — ASCII and full-width digits, both of which satisfy
`char::is_numeric` in Rust. -/
def is_numeric_west (c : Char) : Bool :=
  c.isDigit || is_numeric_fullwidth c

/-- utils.rs `is_fullwidth`: full-width Latin letters. -/
def is_fullwidth (c : Char) : Bool :=
  ('Ａ' ≤ c && c ≤ 'Ｚ') || ('ａ' ≤ c && c ≤ 'ｚ')

/-- utils.rs `is_halfwidth`: the code-point range 0xFF61..=0xFF9F
(half-width katakana and punctuation). -/
def is_halfwidth (c : Char) : Bool :=
  0xFF61 ≤ c.val && c.val ≤ 0xFF9F

/-- utils.rs `is_alphabetic`. -/
def is_alphabetic (c : Char) : Bool :=
  (('A' ≤ c && c ≤ 'Z') || ('a' ≤ c && c ≤ 'z')) || is_fullwidth c || is_halfwidth c

/-- utils.rs `is_hiragana`: 0x3040..=0x309F. -/
def is_hiragana (c : Char) : Bool :=
  0x3040 ≤ c.val && c.val ≤ 0x309F

/-- utils.rs `is_katakana`: 0x30A0..=0x30FF. -/
def is_katakana (c : Char) : Bool :=
  0x30A0 ≤ c.val && c.val ≤ 0x30FF

/-- utils.rs `is_kana`. -/
def is_kana (c : Char) : Bool :=
  is_hiragana c || is_katakana c

/-- utils.rs `is_kanji`: 0x4E00..=0x9FFF. -/
def is_kanji (c : Char) : Bool :=
  0x4E00 ≤ c.val && c.val ≤ 0x9FFF

/-- utils.rs `digit_readings`: candidate readings for one digit, given the
number of digits remaining after it.  The source's final `_ => unreachable!`
arms match only values of `(numbers_left - 1) % 4` other than 0..=3, which
cannot occur, so the catch-all arm below corresponds to the `0` case. -/
def digit_readings (digit : Char) (numbers_left : Nat) : List (List Char) :=
  if digit = '0' ∨ digit = '０' then ["ぜろ".data, "れい".data]
  else if digit = '1' ∨ digit = '１' then
    if numbers_left = 0 then ["いち".data, "ひと".data]
    else if numbers_left % 8 = 0 then ["おく".data, "いちおく".data]
    else match (numbers_left - 1) % 4 with
      | 3 => ["まん".data, "いちまん".data]
      | 2 => ["せん".data, "いっせん".data]
      | 1 => ["ひゃく".data, "いっぴゃく".data]
      | _ => ["じゅう".data]
  else if digit = '2' ∨ digit = '２' then
    if numbers_left = 0 then ["に".data, "ふた".data]
    else if numbers_left % 8 = 0 then ["におく".data]
    else match (numbers_left - 1) % 4 with
      | 3 => ["にまん".data]
      | 2 => ["にせん".data]
      | 1 => ["にひゃく".data]
      | _ => ["にじゅう".data]
  else if digit = '3' ∨ digit = '３' then
    if numbers_left = 0 then ["さん".data, "むっ".data]
    else if numbers_left % 8 = 0 then ["さんおく".data]
    else match (numbers_left - 1) % 4 with
      | 3 => ["さんまん".data]
      | 2 => ["さんぜん".data]
      | 1 => ["さんびゃく".data]
      | _ => ["さんじゅう".data]
  else if digit = '4' ∨ digit = '４' then
    if numbers_left = 0 then ["し".data, "よん".data, "よっ".data, "よ".data]
    else if numbers_left % 8 = 0 then ["よんおく".data]
    else match (numbers_left - 1) % 4 with
      | 3 => ["しまん".data, "よんまん".data]
      | 2 => ["しせん".data, "よんせん".data]
      | 1 => ["しひゃく".data, "よんひゃく".data]
      | _ => ["しじゅう".data, "よんじゅう".data]
  else if digit = '5' ∨ digit = '５' then
    if numbers_left = 0 then ["ご".data, "いつ".data]
    else if numbers_left % 8 = 0 then ["ごおく".data]
    else match (numbers_left - 1) % 4 with
      | 3 => ["ごまん".data]
      | 2 => ["ごせん".data]
      | 1 => ["ごひゃく".data]
      | _ => ["ごじゅう".data]
  else if digit = '6' ∨ digit = '６' then
    if numbers_left = 0 then ["ろく".data, "むっ".data]
    else if numbers_left % 8 = 0 then ["ろくおく".data]
    else match (numbers_left - 1) % 4 with
      | 3 => ["ろくまん".data]
      | 2 => ["ろくせん".data]
      | 1 => ["ろっぴゃく".data]
      | _ => ["ろくじゅう".data]
  else if digit = '7' ∨ digit = '７' then
    if numbers_left = 0 then ["しち".data, "なな".data]
    else if numbers_left % 8 = 0 then ["ななおく".data]
    else match (numbers_left - 1) % 4 with
      | 3 => ["しちまん".data, "ななまん".data]
      | 2 => ["しちせん".data, "ななせん".data]
      | 1 => ["しちひゃく".data, "ななひゃく".data]
      | _ => ["しちじゅう".data, "ななじゅう".data]
  else if digit = '8' ∨ digit = '８' then
    if numbers_left = 0 then ["はち".data, "やっ".data, "はっ".data]
    else match (numbers_left - 1) % 4 with
      | 3 => ["はちまん".data]
      | 2 => ["はっせん".data]
      | 1 => ["はっぴゃく".data]
      | _ => ["はちじゅう".data]
  else if digit = '9' ∨ digit = '９' then
    if numbers_left = 0 then ["きゅう".data, "ここの".data]
    else match (numbers_left - 1) % 4 with
      | 3 => ["きゅうまん".data]
      | 2 => ["きゅうせん".data]
      | 1 => ["きゅうひゃく".data]
      | _ => ["きゅうじゅう".data]
  else []

/-! ## segmentation.rs -/

/-- segmentation.rs `Segment`: a tagged run of the original text. -/
inductive Segment where
  | kana (s : List Char)
  | kanji (s : List Char)
  | alphabetic (s : List Char)
  | numeric (s : List Char)
  | exception (s : List Char)
  | other (s : List Char)
deriving DecidableEq

/-- segmentation.rs `Segment::inner`. -/
def Segment.inner : Segment → List Char
  | .kana s | .kanji s | .alphabetic s | .numeric s | .exception s | .other s => s

/-- segmentation.rs private enum `Char` (renamed: `Char` is taken in Lean). -/
inductive CharClass where
  | kanji
  | kana
  | alphabetic
  | numericWest
  | numericFullwidth
  | exception
  | other
deriving DecidableEq

/-- segmentation.rs `classify_char`. -/
def classify_char (c : Char) : CharClass :=
  if c = 'ヶ' then .exception
  else if is_kanji c then .kanji
  else if is_kana c then .kana
  else if is_alphabetic c then .alphabetic
  else if is_numeric_west c then .numericWest
  else if is_numeric_fullwidth c then .numericFullwidth
  else .other

/-- One step of `CoarseSegmentation::next`: the next segment and the
remaining text.  Rust's `find`-then-slice idiom is `takeWhile`/`dropWhile`
on the negated predicate. -/
def coarse_next : List Char → Option (Segment × List Char)
  | [] => none
  | c :: cs =>
    some (match classify_char c with
      | .alphabetic => (Segment.alphabetic [c], cs)
      | .numericWest =>
          (Segment.numeric ((c :: cs).takeWhile fun x => classify_char x == .numericWest),
           (c :: cs).dropWhile fun x => classify_char x == .numericWest)
      | .numericFullwidth =>
          (Segment.numeric ((c :: cs).takeWhile fun x => classify_char x == .numericFullwidth),
           (c :: cs).dropWhile fun x => classify_char x == .numericFullwidth)
      | .exception => (Segment.exception [c], cs)
      | .other => (Segment.other [c], cs)
      | .kanji =>
          (Segment.kanji ((c :: cs).takeWhile fun x => classify_char x == .kanji || x == '々'),
           (c :: cs).dropWhile fun x => classify_char x == .kanji || x == '々')
      | .kana =>
          (Segment.kana ((c :: cs).takeWhile fun x => classify_char x == .kana),
           (c :: cs).dropWhile fun x => classify_char x == .kana))

/-- One step of `FineSegmentation::next`.  Differs from the coarse variant in
that a kanji is a single-character segment, and the span predicates use the
`utils` predicates directly rather than `classify_char`. -/
def fine_next : List Char → Option (Segment × List Char)
  | [] => none
  | c :: cs =>
    some (match classify_char c with
      | .alphabetic => (Segment.alphabetic [c], cs)
      | .numericWest =>
          (Segment.numeric ((c :: cs).takeWhile fun x => is_numeric_west x),
           (c :: cs).dropWhile fun x => is_numeric_west x)
      | .numericFullwidth =>
          (Segment.numeric ((c :: cs).takeWhile fun x => is_numeric_fullwidth x),
           (c :: cs).dropWhile fun x => is_numeric_fullwidth x)
      | .kanji => (Segment.kanji [c], cs)
      | .kana =>
          (Segment.kana ((c :: cs).takeWhile fun x => is_kana x),
           (c :: cs).dropWhile fun x => is_kana x)
      | .exception => (Segment.exception [c], cs)
      | .other => (Segment.other [c], cs))

/-- Materialise a segmentation iterator.  The fuel only bounds the number of
steps; each step consumes at least one character, so fuel equal to the text
length is always sufficient. -/
def segmentsF (next : List Char → Option (Segment × List Char)) : Nat → List Char → List Segment
  | 0, _ => []
  | fuel + 1, t =>
    match next t with
    | none => []
    | some (s, rest) => s :: segmentsF next fuel rest

/-- segmentation.rs `CoarseSegmentation`, materialised as the full segment
sequence of a text. -/
def CoarseSegmentation (text : List Char) : List Segment :=
  segmentsF coarse_next text.length text

/-- segmentation.rs `FineSegmentation`, materialised as the full segment
sequence of a text. -/
def FineSegmentation (text : List Char) : List Segment :=
  segmentsF fine_next text.length text

/-! ## lib.rs: equivalence rules -/

/-- lib.rs `is_extension`: whether `next` can extend `previous` the way the
katakana vowel-lengthening mark does, per the five vowel families.  The
source's `matches!` table is written as one boolean row per family. -/
def is_extension (previous next : Char) : Bool :=
  ((previous == 'あ' || previous == 'か' || previous == 'さ' || previous == 'た'
      || previous == 'な' || previous == 'は' || previous == 'ま')
    && (next == 'あ' || next == 'ア'))
  || ((previous == 'い' || previous == 'き' || previous == 'し' || previous == 'ち'
      || previous == 'に' || previous == 'ひ' || previous == 'み')
    && (next == 'い' || next == 'イ'))
  || ((previous == 'う' || previous == 'く' || previous == 'す' || previous == 'つ'
      || previous == 'ぬ' || previous == 'ふ' || previous == 'む')
    && (next == 'う' || next == 'ウ'))
  || ((previous == 'え' || previous == 'け' || previous == 'せ' || previous == 'て'
      || previous == 'ね' || previous == 'へ' || previous == 'め')
    && (next == 'え' || next == 'エ'))
  || ((previous == 'お' || previous == 'こ' || previous == 'そ' || previous == 'と'
      || previous == 'の' || previous == 'ほ' || previous == 'も')
    && (next == 'お' || next == 'オ'))

/-- The loop of lib.rs `kana_equivalent`, carrying the previous character of
each side.  Note that after the vowel-lengthening-mark branch the source
falls through to the general code-point comparison (there is no `continue`).
The source compares `leftu32 == rightu32 - 96` with unsigned (wrapping)
subtraction; since wrap-around cannot make the two sides coincide for valid
scalar values, it is written here as an addition on the other side. -/
def kana_eq_go : Option Char → Option Char → List (Char × Char) → Bool
  | _, _, [] => true
  | pl, pr, (l, r) :: rest =>
    let ext_ok : Bool :=
      if l == 'ー' && !(r == 'ー') then
        match pr with
        | none => false
        | some p => is_extension p r
      else if r == 'ー' && !(l == 'ー') then
        match pl with
        | none => false
        | some p => is_extension p l
      else true
    if !ext_ok then false
    else if !(l == r || l.val == r.val + 96 || l.val + 96 == r.val) then false
    else kana_eq_go (some l) (some r) rest

/-- lib.rs `kana_equivalent`: character-wise equivalence up to the fixed
hiragana/katakana code-point distance of 96, plus the length check the
source performs after the loop. -/
def kana_equivalent (left right : List Char) : Bool :=
  kana_eq_go none none (left.zip right) && left.length == right.length

/-- The first-character voicing table of lib.rs `rendaku_equivalent`,
one boolean row per source match arm. -/
def rendaku_pair (ideal actual : Char) : Bool :=
  ((ideal == 'か' || ideal == 'カ') && (actual == 'が' || actual == 'ガ'))
  || ((ideal == 'き' || ideal == 'キ') && (actual == 'ぎ' || actual == 'ギ'))
  || ((ideal == 'く' || ideal == 'ク') && (actual == 'ぐ' || actual == 'グ'))
  || ((ideal == 'け' || ideal == 'ケ') && (actual == 'げ' || actual == 'ゲ'))
  || ((ideal == 'こ' || ideal == 'コ') && (actual == 'ご' || actual == 'ゴ'))
  || ((ideal == 'さ' || ideal == 'サ') && (actual == 'ざ' || actual == 'ザ'))
  || ((ideal == 'し' || ideal == 'シ') && (actual == 'じ' || actual == 'ジ'))
  || ((ideal == 'す' || ideal == 'ス') && (actual == 'ず' || actual == 'ズ'))
  || ((ideal == 'せ' || ideal == 'セ') && (actual == 'ぜ' || actual == 'ゼ'))
  || ((ideal == 'そ' || ideal == 'ソ') && (actual == 'ぞ' || actual == 'ゾ'))
  || ((ideal == 'た' || ideal == 'タ') && (actual == 'だ' || actual == 'ダ'))
  || ((ideal == 'ち' || ideal == 'チ') && (actual == 'ぢ' || actual == 'ヂ'))
  || ((ideal == 'つ' || ideal == 'ツ') && (actual == 'づ' || actual == 'ヅ'))
  || ((ideal == 'て' || ideal == 'テ') && (actual == 'で' || actual == 'デ'))
  || ((ideal == 'と' || ideal == 'ト') && (actual == 'ど' || actual == 'ド'))
  || ((ideal == 'は' || ideal == 'ハ')
      && (actual == 'ば' || actual == 'ぱ' || actual == 'バ' || actual == 'パ'))
  || ((ideal == 'ひ' || ideal == 'ヒ')
      && (actual == 'び' || actual == 'ぴ' || actual == 'ビ' || actual == 'ピ'))
  || ((ideal == 'ふ' || ideal == 'フ')
      && (actual == 'ぶ' || actual == 'ぷ' || actual == 'ブ' || actual == 'プ'))
  || ((ideal == 'へ' || ideal == 'ヘ')
      && (actual == 'べ' || actual == 'ぺ' || actual == 'ベ' || actual == 'ペ'))
  || ((ideal == 'ほ' || ideal == 'ホ')
      && (actual == 'ぼ' || actual == 'ぽ' || actual == 'ボ' || actual == 'ポ'))

/-- lib.rs `rendaku_equivalent`: the first character may be voiced, the rest
must be kana-equivalent. -/
def rendaku_equivalent (ideal_reading actual_reading : List Char) : Bool :=
  match ideal_reading with
  | [] => actual_reading.isEmpty
  | ic :: irest =>
    match actual_reading with
    | [] => false
    | ac :: arest => (ic == ac || rendaku_pair ic ac) && kana_equivalent irest arest

/-- lib.rs `sokuonbin_equivalent`: the last character may be the small-tsu
doubling mark for a k/t/ts-row final, the rest must be kana-equivalent. -/
def sokuonbin_equivalent (ideal_reading actual_reading : List Char) : Bool :=
  match ideal_reading.getLast? with
  | none => actual_reading.isEmpty
  | some ic =>
    match actual_reading.getLast? with
    | none => false
    | some ac =>
      (ic == ac || ((ic == 'く' || ic == 'ち' || ic == 'つ') && ac == 'っ'))
        && kana_equivalent ideal_reading.dropLast actual_reading.dropLast

/-- furigana.rs `KanjiAccuracy`. -/
inductive KanjiAccuracy where
  | Accurate
  | AccurateWithRendaku
  | AccurateWithSokuonbin
  | Inaccurate
deriving DecidableEq

/-- lib.rs `check_kanji_accuracy`. -/
def check_kanji_accuracy (kanji_readings : Option (List (List Char)))
    (kanji_reading : List Char) (can_be_rendaku can_be_sokuonbin : Bool) :
    Option KanjiAccuracy :=
  match kanji_readings with
  | none => none
  | some krs =>
    if krs.any (fun kr => kana_equivalent kr kanji_reading) then
      some .Accurate
    else if can_be_rendaku && krs.any (fun kr => rendaku_equivalent kr kanji_reading) then
      some .AccurateWithRendaku
    else if can_be_sokuonbin && krs.any (fun kr => sokuonbin_equivalent kr kanji_reading) then
      some .AccurateWithSokuonbin
    else
      some .Inaccurate

/-! ## furigana.rs: data model and flattener -/

/-- furigana.rs `FuriganaSegment`. -/
structure FuriganaSegment where
  segment : List Char
  furigana : Option (List Char)
deriving DecidableEq

/-- furigana.rs `Furigana`.  The accuracy is `i32` in the source; sums of
per-node scores in {-2, 0, 1, 2} stay far from the `i32` bounds for any
realistic input, so it is modelled as an integer. -/
structure Furigana where
  furigana : List FuriganaSegment
  accuracy : Int
deriving DecidableEq

mutual
/-- furigana.rs `FuriganaNode`. -/
inductive FuriganaNode where
  | mk : Segment → List Char → NodeList → Option KanjiAccuracy → FuriganaNode
/-- `Vec<FuriganaNode>`, encoded as its own inductive so that all recursion
over the node forest is structural. -/
inductive NodeList where
  | nil : NodeList
  | cons : FuriganaNode → NodeList → NodeList
end

def FuriganaNode.segment : FuriganaNode → Segment
  | .mk s _ _ _ => s

def FuriganaNode.reading : FuriganaNode → List Char
  | .mk _ r _ _ => r

def FuriganaNode.extensions : FuriganaNode → NodeList
  | .mk _ _ e _ => e

def FuriganaNode.kanji_accurate : FuriganaNode → Option KanjiAccuracy
  | .mk _ _ _ k => k

def NodeList.toList : NodeList → List FuriganaNode
  | .nil => []
  | .cons n rest => n :: NodeList.toList rest

def NodeList.isEmpty : NodeList → Bool
  | .nil => true
  | .cons _ _ => false

/-- furigana.rs `FuriganaTree`. -/
structure FuriganaTree where
  text : List Char
  reading : List Char
  nodes : NodeList

/-- Modelled from the spec: `reading_equivalent` is called by the flattener
(src/src/furigana.rs line 25) but its definition is code of this repository
that is not present under src/.  Spec §4.5: the reading is reported absent
"whenever the segment's own text is itself kana-equivalent to its assigned
reading". -/
def reading_equivalent (word reading : List Char) : Bool :=
  kana_equivalent word reading

/-- The grade-to-score table of furigana.rs `Furigana::from_tree_inner`. -/
def kanji_score : Option KanjiAccuracy → Int
  | some .Accurate => 2
  | some .AccurateWithRendaku => 1
  | some .AccurateWithSokuonbin => 1
  | some .Inaccurate => -2
  | none => 0

mutual
/-- furigana.rs `Furigana::from_tree_inner`: flattens a node forest to the
list of complete annotation sequences, depth first, in node order. -/
def from_tree_inner : NodeList → List Furigana
  | .nil => []
  | .cons nd rest => flatten_node nd ++ from_tree_inner rest
/-- The per-node body of the `for node in nodes` loop of `from_tree_inner`. -/
def flatten_node : FuriganaNode → List Furigana
  | .mk seg reading exts acc =>
    let word := seg.inner
    let r : Option (List Char) :=
      if reading_equivalent word reading then none else some reading
    let score := kanji_score acc
    match exts with
    | .nil => [⟨[⟨word, r⟩], score⟩]
    | .cons _ _ =>
      (from_tree_inner exts).map fun f => ⟨⟨word, r⟩ :: f.furigana, score + f.accuracy⟩
end

/-- furigana.rs `Furigana::from_tree`. -/
def from_tree (tree : FuriganaTree) : List Furigana :=
  from_tree_inner tree.nodes

/-! ## Byte-index helpers

The source indexes strings by UTF-8 byte offsets.  `take_bytes` models
`str::get(0..n)` (returning `none` off a character boundary or past the
end); `drop_bytes_or_fault` models the panicking slice `&s[n..]`. -/

/-- Total UTF-8 byte length of a string, Rust `str::len`. -/
def bytes_of (s : List Char) : Nat :=
  (s.map Char.utf8Size).sum

/-- Rust `str::get(0..n)`: the characters making up exactly the first `n`
bytes, or `none` when `n` is past the end or not a character boundary. -/
def take_bytes : List Char → Nat → Option (List Char)
  | _, 0 => some []
  | [], _ + 1 => none
  | c :: cs, n + 1 =>
    if c.utf8Size ≤ n + 1 then
      (take_bytes cs (n + 1 - c.utf8Size)).map (fun r => c :: r)
    else none

/-- Rust `&s[n..]`: drop the first `n` bytes, panicking when `n` is past the
end or not a character boundary. -/
def drop_bytes_or_fault : List Char → Nat → RunResult (List Char)
  | s, 0 => .value s
  | [], _ + 1 => .fault
  | c :: cs, n + 1 =>
    if c.utf8Size ≤ n + 1 then drop_bytes_or_fault cs (n + 1 - c.utf8Size)
    else .fault

/-! ## lib.rs: the matcher -/

/-- The fixed letter-to-reading table of the `Alphabetic` arm of
`map_inner`.  The source's final arm is `unreachable!`, modelled as `none`
(the caller turns it into a panic). -/
def alpha_reading : List Char → Option (List Char)
  | ['A'] | ['a'] | ['Ａ'] | ['ａ'] => some "エー".data
  | ['B'] | ['b'] | ['Ｂ'] | ['ｂ'] => some "ビー".data
  | ['C'] | ['c'] | ['Ｃ'] | ['ｃ'] => some "シー".data
  | ['D'] | ['d'] | ['Ｄ'] | ['ｄ'] => some "ディー".data
  | ['E'] | ['e'] | ['Ｅ'] | ['ｅ'] => some "イー".data
  | ['F'] | ['f'] | ['Ｆ'] | ['ｆ'] => some "エフ".data
  | ['G'] | ['g'] | ['Ｇ'] | ['ｇ'] => some "ギー".data
  | ['H'] | ['h'] | ['Ｈ'] | ['ｈ'] => some "エイチ".data
  | ['I'] | ['i'] | ['Ｉ'] | ['ｉ'] => some "アイ".data
  | ['J'] | ['j'] | ['Ｊ'] | ['ｊ'] => some "ジェー".data
  | ['K'] | ['k'] | ['Ｋ'] | ['ｋ'] => some "ケー".data
  | ['L'] | ['l'] | ['Ｌ'] | ['ｌ'] => some "エル".data
  | ['M'] | ['m'] | ['Ｍ'] | ['ｍ'] => some "エム".data
  | ['N'] | ['n'] | ['Ｎ'] | ['ｎ'] => some "エヌ".data
  | ['O'] | ['o'] | ['Ｏ'] | ['ｏ'] => some "オー".data
  | ['P'] | ['p'] | ['Ｐ'] | ['ｐ'] => some "ピー".data
  | ['Q'] | ['q'] | ['Ｑ'] | ['ｑ'] => some "キュー".data
  | ['R'] | ['r'] | ['Ｒ'] | ['ｒ'] => some "アール".data
  | ['S'] | ['s'] | ['Ｓ'] | ['ｓ'] => some "エス".data
  | ['T'] | ['t'] | ['Ｔ'] | ['ｔ'] => some "ティー".data
  | ['U'] | ['u'] | ['Ｕ'] | ['ｕ'] => some "ユー".data
  | ['V'] | ['v'] | ['Ｖ'] | ['ｖ'] => some "ブイ".data
  | ['W'] | ['w'] | ['Ｗ'] | ['ｗ'] => some "ダブルユー".data
  | ['X'] | ['x'] | ['Ｘ'] | ['ｘ'] => some "エックス".data
  | ['Y'] | ['y'] | ['Ｙ'] | ['ｙ'] => some "ワイ".data
  | ['Z'] | ['z'] | ['Ｚ'] | ['ｚ'] => some "ゼット".data
  | _ => none

/-- The dictionary `HashMap<String, Vec<String>>`, modelled as an
association list (hash-map keys are unique, so first-match lookup agrees
with `HashMap::get`). -/
abbrev Dict := List (List Char × List (List Char))

def dict_get (d : Dict) (k : List Char) : Option (List (List Char)) :=
  match d.find? (fun e => e.fst == k) with
  | none => none
  | some e => some e.snd

/-- `kanji_to_readings.and_then(|km| km.get(kanji))`. -/
def lookup_readings (d : Option Dict) (k : List Char) : Option (List (List Char)) :=
  match d with
  | none => none
  | some dd => dict_get dd k

/-- One digit step of the readings-building loop of the `Numeric` arm of
`map_inner`.  Every element of `readings` equals a character prefix of
`reading_rest` and every digit reading is kana, so the source's byte-length
arithmetic coincides with character counts here. -/
def num_readings_step (reading_rest : List Char) (drs : List (List Char))
    (digit : Char) (readings : List (List Char)) : List (List Char) :=
  if readings.isEmpty then
    drs.filter fun dr => dr.isPrefixOf reading_rest
  else
    readings.foldl
      (fun new reading =>
        let reading_remaining := reading_rest.drop reading.length
        let valid := drs.filter fun dr => dr.isPrefixOf reading_remaining
        if valid.isEmpty then
          if digit == '0' || digit == '０' then new ++ [reading] else new
        else
          new ++ valid.map fun v => reading_rest.take (reading.length + v.length))
      []

/-- The `for digit in number.chars()` loop of the `Numeric` arm: the
`numbers_left` counter for a digit is the number of digits after it. -/
def num_readings_loop (reading_rest : List Char) (readings : List (List Char)) :
    List Char → List (List Char)
  | [] => readings
  | d :: ds =>
    num_readings_loop reading_rest
      (num_readings_step reading_rest (digit_readings d ds.length) d readings) ds

def num_readings (reading_rest number : List Char) : List (List Char) :=
  num_readings_loop reading_rest [] number

/-- All splits of the remaining reading into a non-empty character prefix
and the rest, by increasing prefix length: the `use_reading_up_to` loop of
the `Kanji` arm (and the `chars` loop of the repeat-marker arm). -/
def reading_splits (r : List Char) : List (List Char × List Char) :=
  (List.range r.length).map fun i => (r.take (i + 1), r.drop (i + 1))

/-- The candidate-collecting loop shared by the `Kanji` arm and the
repeat-marker arm of `map_inner`: for each split, if the recursive call
(passed in as `recur`) succeeds, push a graded node; a panic anywhere
propagates. -/
def collect_candidates (recur : List Char → RunResult (Option NodeList))
    (seg : Segment) (kanji_readings : Option (List (List Char)))
    (can_be_rendaku can_be_sokuonbin : Bool) :
    List (List Char × List Char) → RunResult NodeList
  | [] => .value .nil
  | (pre, suf) :: more =>
    match recur suf with
    | .fault => .fault
    | .value none =>
      collect_candidates recur seg kanji_readings can_be_rendaku can_be_sokuonbin more
    | .value (some exts) =>
      match collect_candidates recur seg kanji_readings can_be_rendaku can_be_sokuonbin more with
      | .fault => .fault
      | .value ns =>
        .value (.cons
          (.mk seg pre exts (check_kanji_accuracy kanji_readings pre can_be_rendaku can_be_sokuonbin))
          ns)

/-- The recursing loop of the `Numeric` arm of `map_inner`: unlike the
`Kanji` arm, a failed continuation aborts the whole arm (the source applies
`?` to the recursive call inside the loop). -/
def numeric_candidates (recur : List Char → RunResult (Option NodeList))
    (seg : Segment) (reading_rest : List Char) :
    List (List Char) → RunResult (Option NodeList)
  | [] => .value (some .nil)
  | reading :: more =>
    match recur (reading_rest.drop reading.length) with
    | .fault => .fault
    | .value none => .value none
    | .value (some exts) =>
      match numeric_candidates recur seg reading_rest more with
      | .fault => .fault
      | .value none => .value none
      | .value (some ns) =>
        .value (some (.cons (.mk seg (reading_rest.take reading.length) exts none) ns))

/-- lib.rs `map_inner`, with an explicit fuel so the recursion is structural.
Every recursive call of the source consumes at least one segment, so fuel
equal to the number of segments (what the wrapper `map_inner` passes) is
always sufficient and the fuel-exhaustion arm is unreachable from the entry
points.  Byte-index slices that the source guards (by a successful `get` or
`starts_with`) are written as character-level drops of the same extent;  the
unguarded slice of the ten special case uses `drop_bytes_or_fault`. -/
def map_inner_f : Nat → List Segment → List Char → Option Dict → Option (List Char) → Bool →
    RunResult (Option NodeList)
  | _, [], reading_rest, _, _, _ =>
    if reading_rest.isEmpty then .value (some .nil) else .value none
  | 0, _ :: _, _, _, _, _ => .fault
  | n + 1, seg :: segments_rest, reading_rest, kanji_to_readings, previous_kanji, can_be_rendaku =>
    match seg with
    | .kana kana =>
      match take_bytes reading_rest (bytes_of kana) with
      | none => .value none
      | some reading =>
        if kana_equivalent reading kana then
          match map_inner_f n segments_rest (reading_rest.drop reading.length)
              kanji_to_readings none true with
          | .fault => .fault
          | .value none => .value none
          | .value (some exts) =>
            .value (some (.cons (.mk (.kana kana) reading exts none) .nil))
        else .value none
    | .kanji kanji =>
      if kanji == "大".data && "おとな".data.isPrefixOf reading_rest then
        match segments_rest with
        | .kanji next_kanji :: rest2 =>
          if next_kanji == "人".data then
            match map_inner_f n rest2 (reading_rest.drop 3) kanji_to_readings none true with
            | .fault => .fault
            | .value none => .value none
            | .value (some exts) =>
              .value (some (.cons
                (.mk (.kanji "大人".data) "おとな".data exts (some .Accurate)) .nil))
          else .value none
        | _ => .value none
      else
        if reading_rest.isEmpty then .value none
        else
          match collect_candidates
              (fun r => map_inner_f n segments_rest r kanji_to_readings (some kanji) true)
              (.kanji kanji) (lookup_readings kanji_to_readings kanji)
              can_be_rendaku (!segments_rest.isEmpty)
              (reading_splits reading_rest) with
          | .fault => .fault
          | .value ns => if ns.isEmpty then .value none else .value (some ns)
    | .alphabetic alpha =>
      match alpha_reading alpha with
      | none => .fault
      | some ar =>
        match take_bytes reading_rest (bytes_of ar) with
        | none => .value none
        | some corresponding =>
          if kana_equivalent corresponding ar then
            match map_inner_f n segments_rest (reading_rest.drop corresponding.length)
                kanji_to_readings none true with
            | .fault => .fault
            | .value none => .value none
            | .value (some exts) =>
              .value (some (.cons (.mk (.alphabetic alpha) ar exts none) .nil))
          else .value none
    | .numeric number =>
      if number == "10".data || (number == "１０".data && "とお".data.isPrefixOf reading_rest) then
        match drop_bytes_or_fault reading_rest 6 with
        | .fault => .fault
        | .value rest =>
          match map_inner_f n segments_rest rest kanji_to_readings none false with
          | .fault => .fault
          | .value none => .value none
          | .value (some exts) =>
            .value (some (.cons
              (.mk (.numeric number) "とお".data exts (some .Accurate)) .nil))
      else
        match numeric_candidates
            (fun r => map_inner_f n segments_rest r kanji_to_readings none false)
            (.numeric number) reading_rest (num_readings reading_rest number) with
        | .fault => .fault
        | .value none => .value none
        | .value (some ns) => if ns.isEmpty then .value none else .value (some ns)
    | .exception exc =>
      if exc == "ヶ".data then
        match take_bytes reading_rest 3 with
        | none => .value none
        | some reading =>
          if reading == "か".data then
            match map_inner_f n segments_rest (reading_rest.drop reading.length)
                kanji_to_readings previous_kanji can_be_rendaku with
            | .fault => .fault
            | .value none => .value none
            | .value (some exts) =>
              .value (some (.cons (.mk (.exception exc) reading exts none) .nil))
          else .value none
      else .value none
    | .other other =>
      if other == "々".data then
        match previous_kanji with
        | none => .value none
        | some kanji =>
          if reading_rest.isEmpty then .value none
          else
            match collect_candidates
                (fun r => map_inner_f n segments_rest r kanji_to_readings (some kanji) true)
                (.other other) (lookup_readings kanji_to_readings kanji)
                can_be_rendaku (!segments_rest.isEmpty)
                (reading_splits reading_rest) with
            | .fault => .fault
            | .value ns => .value (some ns)
      else .value none

/-- lib.rs `map_inner` (the fuel of the model is the segment count). -/
def map_inner (segments : List Segment) (reading_rest : List Char)
    (kanji_to_readings : Option Dict) (previous_kanji : Option (List Char))
    (can_be_rendaku : Bool) : RunResult (Option NodeList) :=
  map_inner_f segments.length segments reading_rest kanji_to_readings previous_kanji can_be_rendaku

/-- lib.rs `map_naive`. -/
def map_naive (text reading : List Char) : RunResult (List Furigana) :=
  if text.all is_kana then
    .value [⟨[⟨text, none⟩], 1⟩]
  else if text.length == 1 then
    .value [⟨[⟨text, some reading⟩], 1⟩]
  else
    match map_inner (CoarseSegmentation text) reading none none false with
    | .fault => .fault
    | .value nodes => .value (from_tree ⟨text, reading, nodes.getD .nil⟩)

/-- lib.rs `map`. -/
def map (word reading : List Char) (kanji_to_readings : Dict) : RunResult (List Furigana) :=
  if word.all is_kana then
    .value [⟨[⟨word, none⟩], 1⟩]
  else if word.length == 1 then
    .value [⟨[⟨word, some reading⟩], 1⟩]
  else
    match map_inner (FineSegmentation word) reading (some kanji_to_readings) none false with
    | .fault => .fault
    | .value nodes => .value (from_tree ⟨word, reading, nodes.getD .nil⟩)

/-! ## Derived observations on an annotation sequence -/

/-- Concatenation of the original-text substrings of a flattened sequence. -/
def segs_concat (f : Furigana) : List Char :=
  (f.furigana.map FuriganaSegment.segment).flatten

/-- Concatenation of the non-absent reading fields of a flattened sequence. -/
def readings_concat (f : Furigana) : List Char :=
  (f.furigana.filterMap FuriganaSegment.furigana).flatten

/-- Concatenation of the inner substrings of a segment sequence. -/
def inner_concat (segs : List Segment) : List Char :=
  (segs.map Segment.inner).flatten

/-! ## Root-to-leaf paths through a node forest (for the accuracy law) -/

/-- A root-to-leaf path through a forest: each node is drawn from the
current forest, descending into its continuations, ending at a node with no
continuations. -/
inductive IsPath : NodeList → List FuriganaNode → Prop where
  | leaf : ∀ {nl : NodeList} {nd : FuriganaNode},
      nd ∈ nl.toList → nd.extensions = .nil → IsPath nl [nd]
  | cons : ∀ {nl : NodeList} {nd : FuriganaNode} {p : List FuriganaNode},
      nd ∈ nl.toList → nd.extensions ≠ .nil → IsPath nd.extensions p →
      IsPath nl (nd :: p)

/-- The annotation-sequence entries a path flattens to. -/
def path_segments (p : List FuriganaNode) : List FuriganaSegment :=
  p.map fun nd =>
    ⟨nd.segment.inner,
     if reading_equivalent nd.segment.inner nd.reading then none else some nd.reading⟩

/-- The grade-weighted score of a path. -/
def path_score (p : List FuriganaNode) : Int :=
  (p.map fun nd => kanji_score nd.kanji_accurate).sum

/-! ## Lemmas about segmentation -/

theorem inner_concat_nil : inner_concat [] = [] := rfl

theorem inner_concat_cons (s : Segment) (rest : List Segment) :
    inner_concat (s :: rest) = s.inner ++ inner_concat rest := by
  simp [inner_concat]

theorem classify_char_kana {c : Char} (h : classify_char c = .kana) : is_kana c = true := by
  unfold classify_char at h
  split_ifs at h <;> simp_all

theorem classify_char_numericWest {c : Char} (h : classify_char c = .numericWest) :
    is_numeric_west c = true := by
  unfold classify_char at h
  split_ifs at h <;> simp_all

theorem classify_char_numericFullwidth {c : Char} (h : classify_char c = .numericFullwidth) :
    is_numeric_fullwidth c = true := by
  unfold classify_char at h
  split_ifs at h <;> simp_all

/-- A successful coarse segmentation step yields a non-empty segment whose
inner string, prepended to the leftover, reconstructs the input. -/
theorem coarse_next_spec {t : List Char} {s : Segment} {rest : List Char}
    (h : coarse_next t = some (s, rest)) : s.inner ≠ [] ∧ s.inner ++ rest = t := by
  match t with
  | [] => simp [coarse_next] at h
  | c :: cs =>
    cases hc : classify_char c <;>
      simp only [coarse_next, hc, Option.some.injEq, Prod.mk.injEq] at h <;>
      obtain ⟨rfl, rfl⟩ := h.symm
    case kanji =>
      rw [Segment.inner, List.takeWhile_cons_of_pos (by simp [hc])]
      refine ⟨by simp, ?_⟩
      rw [← List.takeWhile_cons_of_pos (p := fun x => classify_char x == .kanji || x == '々')
        (by simp [hc])]
      exact List.takeWhile_append_dropWhile _ _
    case kana =>
      rw [Segment.inner, List.takeWhile_cons_of_pos (by simp [hc])]
      refine ⟨by simp, ?_⟩
      rw [← List.takeWhile_cons_of_pos (p := fun x => classify_char x == .kana) (by simp [hc])]
      exact List.takeWhile_append_dropWhile _ _
    case numericWest =>
      rw [Segment.inner, List.takeWhile_cons_of_pos (by simp [hc])]
      refine ⟨by simp, ?_⟩
      rw [← List.takeWhile_cons_of_pos (p := fun x => classify_char x == .numericWest)
        (by simp [hc])]
      exact List.takeWhile_append_dropWhile _ _
    case numericFullwidth =>
      rw [Segment.inner, List.takeWhile_cons_of_pos (by simp [hc])]
      refine ⟨by simp, ?_⟩
      rw [← List.takeWhile_cons_of_pos (p := fun x => classify_char x == .numericFullwidth)
        (by simp [hc])]
      exact List.takeWhile_append_dropWhile _ _
    case alphabetic => exact ⟨by simp [Segment.inner], by simp [Segment.inner]⟩
    case exception => exact ⟨by simp [Segment.inner], by simp [Segment.inner]⟩
    case other => exact ⟨by simp [Segment.inner], by simp [Segment.inner]⟩

/-- A successful fine segmentation step yields a non-empty segment whose
inner string, prepended to the leftover, reconstructs the input. -/
theorem fine_next_spec {t : List Char} {s : Segment} {rest : List Char}
    (h : fine_next t = some (s, rest)) : s.inner ≠ [] ∧ s.inner ++ rest = t := by
  match t with
  | [] => simp [fine_next] at h
  | c :: cs =>
    cases hc : classify_char c <;>
      simp only [fine_next, hc, Option.some.injEq, Prod.mk.injEq] at h <;>
      obtain ⟨rfl, rfl⟩ := h.symm
    case kana =>
      rw [Segment.inner, List.takeWhile_cons_of_pos (by simp [classify_char_kana hc])]
      refine ⟨by simp, ?_⟩
      rw [← List.takeWhile_cons_of_pos (p := fun x => is_kana x)
        (by simp [classify_char_kana hc])]
      exact List.takeWhile_append_dropWhile _ _
    case numericWest =>
      rw [Segment.inner, List.takeWhile_cons_of_pos (by simp [classify_char_numericWest hc])]
      refine ⟨by simp, ?_⟩
      rw [← List.takeWhile_cons_of_pos (p := fun x => is_numeric_west x)
        (by simp [classify_char_numericWest hc])]
      exact List.takeWhile_append_dropWhile _ _
    case numericFullwidth =>
      rw [Segment.inner,
        List.takeWhile_cons_of_pos (by simp [classify_char_numericFullwidth hc])]
      refine ⟨by simp, ?_⟩
      rw [← List.takeWhile_cons_of_pos (p := fun x => is_numeric_fullwidth x)
        (by simp [classify_char_numericFullwidth hc])]
      exact List.takeWhile_append_dropWhile _ _
    case kanji => exact ⟨by simp [Segment.inner], by simp [Segment.inner]⟩
    case alphabetic => exact ⟨by simp [Segment.inner], by simp [Segment.inner]⟩
    case exception => exact ⟨by simp [Segment.inner], by simp [Segment.inner]⟩
    case other => exact ⟨by simp [Segment.inner], by simp [Segment.inner]⟩

theorem coarse_next_cons (c : Char) (cs : List Char) : coarse_next (c :: cs) ≠ none := by
  cases hc : classify_char c <;> simp [coarse_next, hc]

theorem fine_next_cons (c : Char) (cs : List Char) : fine_next (c :: cs) ≠ none := by
  cases hc : classify_char c <;> simp [fine_next, hc]

/-- Any step function with the decomposition property materialises, with
sufficient fuel, into a covering sequence of non-empty segments. -/
theorem segmentsF_spec (next : List Char → Option (Segment × List Char))
    (hdec : ∀ {t s rest}, next t = some (s, rest) → s.inner ≠ [] ∧ s.inner ++ rest = t)
    (hcons : ∀ c cs, next (c :: cs) ≠ none) :
    ∀ (fuel : Nat) (t : List Char), t.length ≤ fuel →
      inner_concat (segmentsF next fuel t) = t
      ∧ ∀ s ∈ segmentsF next fuel t, s.inner ≠ [] := by
  intro fuel
  induction fuel with
  | zero =>
    intro t ht
    have : t = [] := List.length_eq_zero.mp (Nat.le_zero.mp ht)
    subst this
    simp [segmentsF, inner_concat]
  | succ n ih =>
    intro t ht
    match t with
    | [] =>
      cases hnext : next [] with
      | none => simp [segmentsF, hnext, inner_concat]
      | some sr =>
        obtain ⟨s, rest⟩ := sr
        obtain ⟨hne, hcat⟩ := hdec hnext
        exact absurd (List.append_eq_nil.mp hcat).1 hne
    | c :: cs =>
      cases hnext : next (c :: cs) with
      | none => exact absurd hnext (hcons c cs)
      | some sr =>
        obtain ⟨s, rest⟩ := sr
        obtain ⟨hne, hcat⟩ := hdec hnext
        have hlen : rest.length ≤ n := by
          have h1 : s.inner.length + rest.length = (c :: cs).length := by
            rw [← hcat]; simp
          have h2 : 1 ≤ s.inner.length := List.length_pos.mpr hne
          simp only [List.length_cons] at h1 ht
          omega
        obtain ⟨ihc, ihne⟩ := ih rest hlen
        simp only [segmentsF, hnext]
        constructor
        · rw [inner_concat_cons, ihc, hcat]
        · intro s' hs'
          rcases List.mem_cons.mp hs' with rfl | hs'
          · exact hne
          · exact ihne s' hs'

theorem coarse_covers (text : List Char) :
    inner_concat (CoarseSegmentation text) = text
    ∧ ∀ s ∈ CoarseSegmentation text, s.inner ≠ [] :=
  segmentsF_spec coarse_next (fun h => coarse_next_spec h) coarse_next_cons text.length text
    le_rfl

theorem fine_covers (text : List Char) :
    inner_concat (FineSegmentation text) = text
    ∧ ∀ s ∈ FineSegmentation text, s.inner ≠ [] :=
  segmentsF_spec fine_next (fun h => fine_next_spec h) fine_next_cons text.length text le_rfl

/-! ## Lemmas about the flattener -/

theorem from_tree_inner_cons (nd : FuriganaNode) (rest : NodeList) :
    from_tree_inner (.cons nd rest) = flatten_node nd ++ from_tree_inner rest := by
  rw [from_tree_inner]

theorem mem_from_tree_inner (f : Furigana) :
    ∀ nl : NodeList, f ∈ from_tree_inner nl ↔ ∃ nd ∈ nl.toList, f ∈ flatten_node nd
  | .nil => by rw [from_tree_inner]; simp [NodeList.toList]
  | .cons nd rest => by
    rw [from_tree_inner_cons]
    simp only [List.mem_append, mem_from_tree_inner f rest, NodeList.toList, List.mem_cons]
    constructor
    · rintro (h | ⟨nd', hmem, hf⟩)
      · exact ⟨nd, Or.inl rfl, h⟩
      · exact ⟨nd', Or.inr hmem, hf⟩
    · rintro ⟨nd', rfl | hmem, hf⟩
      · exact Or.inl hf
      · exact Or.inr ⟨nd', hmem, hf⟩

/-- If every flattened continuation of a node is a prefix of `T`, everything
flattened from the node itself is a prefix of the node's text followed by
`T`. -/
theorem flatten_node_sound {T : List Char} {s : Segment} {rd : List Char}
    {e : NodeList} {a : Option KanjiAccuracy}
    (hext : ∀ g ∈ from_tree_inner e, ∃ t, segs_concat g ++ t = T) :
    ∀ f ∈ flatten_node (.mk s rd e a), ∃ t, segs_concat f ++ t = s.inner ++ T := by
  cases e with
  | nil =>
    intro f hf
    rw [flatten_node] at hf
    simp only [List.mem_singleton] at hf
    subst hf
    exact ⟨T, by simp [segs_concat]⟩
  | cons e0 es =>
    intro f hf
    rw [flatten_node] at hf
    simp only [List.mem_map] at hf
    obtain ⟨g, hg, rfl⟩ := hf
    obtain ⟨t, ht⟩ := hext g hg
    refine ⟨t, ?_⟩
    simp only [segs_concat, List.map_cons, List.flatten_cons] at ht ⊢
    rw [List.append_assoc, ht]

/-! ## Lemmas about the matcher loops -/

theorem collect_candidates_mem {recur : List Char → RunResult (Option NodeList)}
    {seg : Segment} {kr : Option (List (List Char))} {cr cs : Bool} :
    ∀ {splits : List (List Char × List Char)} {ns : NodeList},
      collect_candidates recur seg kr cr cs splits = .value ns →
      ∀ nd ∈ ns.toList, nd.segment = seg ∧ ∃ suf, recur suf = .value (some nd.extensions)
  | [], ns => by
    intro h
    rw [collect_candidates] at h
    cases h
    simp [NodeList.toList]
  | (pre, suf) :: more, ns => by
    intro h nd hnd
    rw [collect_candidates] at h
    cases h1 : recur suf with
    | fault => rw [h1] at h; cases h
    | value o =>
      cases o with
      | none =>
        rw [h1] at h
        exact collect_candidates_mem h nd hnd
      | some exts =>
        rw [h1] at h
        cases h2 : collect_candidates recur seg kr cr cs more with
        | fault => rw [h2] at h; cases h
        | value ns' =>
          rw [h2] at h
          cases h
          rcases List.mem_cons.mp hnd with rfl | hnd'
          · exact ⟨rfl, suf, by simp only [FuriganaNode.extensions]; exact h1⟩
          · exact collect_candidates_mem h2 nd hnd'

theorem numeric_candidates_mem {recur : List Char → RunResult (Option NodeList)}
    {seg : Segment} {rr : List Char} :
    ∀ {rs : List (List Char)} {ns : NodeList},
      numeric_candidates recur seg rr rs = .value (some ns) →
      ∀ nd ∈ ns.toList, nd.segment = seg ∧ ∃ suf, recur suf = .value (some nd.extensions)
  | [], ns => by
    intro h
    rw [numeric_candidates] at h
    cases h
    simp [NodeList.toList]
  | reading :: more, ns => by
    intro h nd hnd
    rw [numeric_candidates] at h
    cases h1 : recur (rr.drop reading.length) with
    | fault => rw [h1] at h; cases h
    | value o =>
      cases o with
      | none => rw [h1] at h; cases h
      | some exts =>
        rw [h1] at h
        cases h2 : numeric_candidates recur seg rr more with
        | fault => rw [h2] at h; cases h
        | value o' =>
          cases o' with
          | none => rw [h2] at h; cases h
          | some ns' =>
            rw [h2] at h
            cases h
            rcases List.mem_cons.mp hnd with rfl | hnd'
            · exact ⟨rfl, _, by simp only [FuriganaNode.extensions]; exact h1⟩
            · exact numeric_candidates_mem h2 nd hnd'

/-- Everything flattened from a one-node forest is the node's text followed
by a prefix of whatever its continuations cover. -/
theorem fti_single_sound {T w : List Char} {s : Segment} {rd : List Char}
    {e : NodeList} {a : Option KanjiAccuracy}
    (hw : s.inner = w)
    (hext : ∀ g ∈ from_tree_inner e, ∃ t, segs_concat g ++ t = T) :
    ∀ f ∈ from_tree_inner (NodeList.cons (.mk s rd e a) .nil),
      ∃ t, segs_concat f ++ t = w ++ T := by
  intro f hf
  rw [from_tree_inner_cons, from_tree_inner, List.append_nil] at hf
  subst hw
  exact flatten_node_sound hext f hf

/-- Main coverage invariant of the matcher: every annotation sequence
flattened from a successful `map_inner` call covers a prefix of the text of
the segments handed to it.  (Only a prefix: the repeat-marker arm can
succeed with an empty candidate set, which the flattener then treats as a
completed path.) -/
theorem map_inner_f_covers :
    ∀ (fuel : Nat) (segs : List Segment) (r : List Char) (d : Option Dict)
      (prev : Option (List Char)) (cr : Bool) (ns : NodeList),
      segs.length ≤ fuel →
      map_inner_f fuel segs r d prev cr = .value (some ns) →
      ∀ f ∈ from_tree_inner ns, ∃ t, segs_concat f ++ t = inner_concat segs := by
  intro fuel
  induction fuel with
  | zero =>
    intro segs r d prev cr ns hlen h
    have hnil : segs = [] := List.length_eq_zero.mp (Nat.le_zero.mp hlen)
    subst hnil
    simp only [map_inner_f] at h
    split at h
    · cases h
      intro f hf
      rw [from_tree_inner] at hf
      simp at hf
    · simp at h
  | succ n ih =>
    intro segs r d prev cr ns hlen h
    match segs with
    | [] =>
      simp only [map_inner_f] at h
      split at h
      · cases h
        intro f hf
        rw [from_tree_inner] at hf
        simp at hf
      · simp at h
    | seg :: rest =>
      have hrest : rest.length ≤ n := by
        simp only [List.length_cons] at hlen
        omega
      rw [inner_concat_cons]
      cases seg with
      | kana kana =>
        simp only [map_inner_f] at h
        split at h
        · simp at h
        · rename_i reading htb
          split at h
          · split at h
            · simp at h
            · simp at h
            · rename_i exts hrec
              cases h
              exact fti_single_sound rfl
                (ih rest (r.drop reading.length) d none true exts hrest hrec)
          · simp at h
      | kanji kanji =>
        simp only [map_inner_f] at h
        split at h
        · -- the 大人 idiom branch
          rename_i hbig
          split at h
          · rename_i next_kanji rest2
            split at h
            · rename_i hnk
              split at h
              · simp at h
              · simp at h
              · rename_i exts hrec
                cases h
                have hrest2 : rest2.length ≤ n := by
                  simp only [List.length_cons] at hrest
                  omega
                have hk : kanji = "大".data := by
                  have hb := hbig
                  simp only [Bool.and_eq_true, beq_iff_eq] at hb
                  exact hb.1
                have hnk' : next_kanji = "人".data := by simpa using hnk
                subst hk
                subst hnk'
                intro f hf
                obtain ⟨t, ht⟩ := fti_single_sound (T := inner_concat rest2) rfl
                  (ih rest2 (r.drop 3) d none true exts hrest2 hrec) f hf
                refine ⟨t, ?_⟩
                rw [ht, inner_concat_cons]
                rfl
            · simp at h
          · simp at h
        · -- the general kanji branch
          split at h
          · simp at h
          · split at h
            · simp at h
            · rename_i cns hcol
              split at h
              · simp at h
              · cases h
                intro f hf
                obtain ⟨nd, hnd, hfn⟩ := (mem_from_tree_inner f _).mp hf
                obtain ⟨hseg, suf, hrec⟩ := collect_candidates_mem hcol nd hnd
                obtain ⟨s0, rd0, e0, a0⟩ := nd
                simp only [FuriganaNode.extensions] at hrec
                simp only [FuriganaNode.segment] at hseg
                obtain ⟨t, ht⟩ := flatten_node_sound (T := inner_concat rest)
                  (ih rest suf d (some kanji) true e0 hrest hrec) f hfn
                exact ⟨t, by rw [ht, hseg]⟩
      | alphabetic alpha =>
        simp only [map_inner_f] at h
        split at h
        · simp at h
        · rename_i ar har
          split at h
          · simp at h
          · rename_i corresponding htb
            split at h
            · split at h
              · simp at h
              · simp at h
              · rename_i exts hrec
                cases h
                exact fti_single_sound rfl
                  (ih rest (r.drop corresponding.length) d none true exts hrest hrec)
            · simp at h
      | numeric number =>
        simp only [map_inner_f] at h
        split at h
        · -- the ten special case
          split at h
          · simp at h
          · rename_i r' hdb
            split at h
            · simp at h
            · simp at h
            · rename_i exts hrec
              cases h
              exact fti_single_sound rfl (ih rest r' d none false exts hrest hrec)
        · -- the digit-by-digit branch
          split at h
          · simp at h
          · simp at h
          · rename_i cns hnum
            split at h
            · simp at h
            · cases h
              intro f hf
              obtain ⟨nd, hnd, hfn⟩ := (mem_from_tree_inner f _).mp hf
              obtain ⟨hseg, suf, hrec⟩ := numeric_candidates_mem hnum nd hnd
              obtain ⟨s0, rd0, e0, a0⟩ := nd
              simp only [FuriganaNode.extensions] at hrec
              simp only [FuriganaNode.segment] at hseg
              obtain ⟨t, ht⟩ := flatten_node_sound (T := inner_concat rest)
                (ih rest suf d none false e0 hrest hrec) f hfn
              exact ⟨t, by rw [ht, hseg]⟩
      | exception exc =>
        simp only [map_inner_f] at h
        split at h
        · split at h
          · simp at h
          · rename_i reading htb
            split at h
            · split at h
              · simp at h
              · simp at h
              · rename_i exts hrec
                cases h
                exact fti_single_sound rfl
                  (ih rest (r.drop reading.length) d prev cr exts hrest hrec)
            · simp at h
        · simp at h
      | other other =>
        simp only [map_inner_f] at h
        split at h
        · split at h
          · simp at h
          · rename_i kanji
            split at h
            · simp at h
            · split at h
              · simp at h
              · rename_i cns hcol
                cases h
                intro f hf
                obtain ⟨nd, hnd, hfn⟩ := (mem_from_tree_inner f _).mp hf
                obtain ⟨hseg, suf, hrec⟩ := collect_candidates_mem hcol nd hnd
                obtain ⟨s0, rd0, e0, a0⟩ := nd
                simp only [FuriganaNode.extensions] at hrec
                simp only [FuriganaNode.segment] at hseg
                obtain ⟨t, ht⟩ := flatten_node_sound (T := inner_concat rest)
                  (ih rest suf d (some kanji) true e0 hrest hrec) f hfn
                exact ⟨t, by rw [ht, hseg]⟩
        · simp at h

theorem isPath_weaken {nd : FuriganaNode} {rest : NodeList} {p : List FuriganaNode}
    (h : IsPath rest p) : IsPath (NodeList.cons nd rest) p := by
  cases h with
  | leaf hmem hnil =>
    exact IsPath.leaf (by simp [NodeList.toList]; exact Or.inr hmem) hnil
  | cons hmem hne hp =>
    exact IsPath.cons (by simp [NodeList.toList]; exact Or.inr hmem) hne hp

/-- Every flattened annotation sequence arises from a root-to-leaf path, its
entries are the path's entries, and its accuracy is the path's
grade-weighted sum. -/
theorem from_tree_path :
    ∀ (nl : NodeList) (f : Furigana), f ∈ from_tree_inner nl →
      ∃ p, IsPath nl p ∧ f.furigana = path_segments p ∧ f.accuracy = path_score p
  | .nil, f, hf => by
    rw [from_tree_inner] at hf
    simp at hf
  | .cons (.mk s rd .nil a) rest, f, hf => by
    rw [from_tree_inner_cons] at hf
    rcases List.mem_append.mp hf with hn | hr
    · rw [flatten_node] at hn
      simp only [List.mem_singleton] at hn
      subst hn
      refine ⟨[.mk s rd .nil a], IsPath.leaf (by simp [NodeList.toList]) rfl, ?_, ?_⟩
      · simp [path_segments, FuriganaNode.segment, FuriganaNode.reading]
      · simp [path_score, FuriganaNode.kanji_accurate]
    · obtain ⟨p, hp, hfur, hacc⟩ := from_tree_path rest f hr
      exact ⟨p, isPath_weaken hp, hfur, hacc⟩
  | .cons (.mk s rd (.cons e0 es) a) rest, f, hf => by
    rw [from_tree_inner_cons] at hf
    rcases List.mem_append.mp hf with hn | hr
    · rw [flatten_node] at hn
      simp only [List.mem_map] at hn
      obtain ⟨g, hg, rfl⟩ := hn
      obtain ⟨p, hp, hfur, hacc⟩ := from_tree_path (.cons e0 es) g hg
      refine ⟨.mk s rd (.cons e0 es) a :: p, ?_, ?_, ?_⟩
      · exact IsPath.cons (by simp [NodeList.toList]) (by simp [FuriganaNode.extensions]) hp
      · simp [path_segments, FuriganaNode.segment, FuriganaNode.reading] at hfur ⊢
        exact hfur
      · simp [path_score, FuriganaNode.kanji_accurate] at hacc ⊢
        rw [hacc]
    · obtain ⟨p, hp, hfur, hacc⟩ := from_tree_path rest f hr
      exact ⟨p, isPath_weaken hp, hfur, hacc⟩
  termination_by nl => sizeOf nl

/-! ## Claim theorems -/

/-- C1 (counterexample): on the repository's own test input 物の怪 with
pronunciation もののけ, a returned sequence suppresses the reading of the
kana segment の, so concatenating the non-absent reading fields gives
ものけ, not the input pronunciation もののけ — refuting the claim that the
non-absent readings always concatenate to the pronunciation. -/
theorem c1_coverage_cex :
    map_naive "物の怪".data "もののけ".data = .value
      [⟨[⟨"物".data, some "も".data⟩, ⟨"の".data, none⟩, ⟨"怪".data, some "のけ".data⟩], 0⟩,
       ⟨[⟨"物".data, some "もの".data⟩, ⟨"の".data, none⟩, ⟨"怪".data, some "け".data⟩], 0⟩]
    ∧ readings_concat
        ⟨[⟨"物".data, some "も".data⟩, ⟨"の".data, none⟩, ⟨"怪".data, some "のけ".data⟩], 0⟩
        = "ものけ".data
    ∧ "ものけ".data ≠ "もののけ".data :=
  ⟨rfl, rfl, by decide⟩

/-- C1 (amended): for every sequence returned without panic by map_naive or
map, the concatenation of its segment substrings is a prefix of the input
text (the whole text except where the repeat-marker bug truncates a path);
no guarantee relates the reading fields to the pronunciation, since
readings kana-equivalent to their segment are suppressed. -/
theorem c1_coverage_amended (text reading : List Char) (d : Dict) (out : List Furigana)
    (h : map_naive text reading = .value out ∨ map text reading d = .value out) :
    ∀ f ∈ out, ∃ t, segs_concat f ++ t = text := by
  rcases h with h | h
  · rw [map_naive] at h
    split at h
    · cases h
      intro f hf
      simp only [List.mem_singleton] at hf
      subst hf
      exact ⟨[], by simp [segs_concat]⟩
    · split at h
      · cases h
        intro f hf
        simp only [List.mem_singleton] at hf
        subst hf
        exact ⟨[], by simp [segs_concat]⟩
      · split at h
        · simp at h
        · rename_i nodes hmi
          cases h
          cases nodes with
          | none =>
            intro f hf
            simp [from_tree, from_tree_inner] at hf
          | some ns =>
            intro f hf
            simp only [from_tree, Option.getD] at hf
            simp only [map_inner] at hmi
            obtain ⟨t, ht⟩ := map_inner_f_covers (CoarseSegmentation text).length
              (CoarseSegmentation text) reading none none false ns le_rfl hmi f hf
            exact ⟨t, by rw [ht, (coarse_covers text).1]⟩
  · rw [map] at h
    split at h
    · cases h
      intro f hf
      simp only [List.mem_singleton] at hf
      subst hf
      exact ⟨[], by simp [segs_concat]⟩
    · split at h
      · cases h
        intro f hf
        simp only [List.mem_singleton] at hf
        subst hf
        exact ⟨[], by simp [segs_concat]⟩
      · split at h
        · simp at h
        · rename_i nodes hmi
          cases h
          cases nodes with
          | none =>
            intro f hf
            simp [from_tree, from_tree_inner] at hf
          | some ns =>
            intro f hf
            simp only [from_tree, Option.getD] at hf
            simp only [map_inner] at hmi
            obtain ⟨t, ht⟩ := map_inner_f_covers (FineSegmentation text).length
              (FineSegmentation text) reading (some d) none false ns le_rfl hmi f hf
            exact ⟨t, by rw [ht, (fine_covers text).1]⟩

/-- C1 (witness): the amended coverage statement instantiated on the
物の怪/もののけ example. -/
theorem c1_coverage_witness :
    map_naive "物の怪".data "もののけ".data = .value
      [⟨[⟨"物".data, some "も".data⟩, ⟨"の".data, none⟩, ⟨"怪".data, some "のけ".data⟩], 0⟩,
       ⟨[⟨"物".data, some "もの".data⟩, ⟨"の".data, none⟩, ⟨"怪".data, some "け".data⟩], 0⟩]
    ∧ ∃ t,
      segs_concat
        ⟨[⟨"物".data, some "も".data⟩, ⟨"の".data, none⟩, ⟨"怪".data, some "のけ".data⟩], 0⟩
        ++ t = "物の怪".data :=
  ⟨rfl,
   c1_coverage_amended "物の怪".data "もののけ".data []
     [⟨[⟨"物".data, some "も".data⟩, ⟨"の".data, none⟩, ⟨"怪".data, some "のけ".data⟩], 0⟩,
      ⟨[⟨"物".data, some "もの".data⟩, ⟨"の".data, none⟩, ⟨"怪".data, some "け".data⟩], 0⟩]
     (Or.inl rfl)
     ⟨[⟨"物".data, some "も".data⟩, ⟨"の".data, none⟩, ⟨"怪".data, some "のけ".data⟩], 0⟩
     (by decide)⟩

/-- C2 (refuted): both entry points can panic.  A half-width katakana
character classifies as Alphabetic (is_halfwidth covers U+FF61..=U+FF9F) but
is missing from the letter table, reaching the unreachable! arm; and the
ten special case slices six bytes off the remaining reading without any
guard when the numeric segment is half-width 10. -/
theorem c2_no_panic_refuted :
    map_naive "ｱあ".data "あ".data = .fault
    ∧ map_naive "10日".data "に".data = .fault :=
  ⟨rfl, rfl⟩

/-- C3 (refuted): on 日々あ with pronunciation ひびび no alignment covering
the whole text exists (あ matches neither remaining reading), yet map
returns two non-empty sequences — and they cover only the first character,
so a non-empty result is returned although no valid alignment exists. -/
theorem c3_empty_list_refuted :
    map "日々あ".data "ひびび".data [] = .value
      [⟨[⟨"日".data, some "ひ".data⟩], 0⟩, ⟨[⟨"日".data, some "ひび".data⟩], 0⟩]
    ∧ segs_concat ⟨[⟨"日".data, some "ひ".data⟩], 0⟩ ≠ "日々あ".data :=
  ⟨rfl, by decide⟩

/-- C4 (refuted): the source's condition parses as
number == "10" || (number == "１０" && starts_with とお), so a half-width
10 segment always takes the irregular ten path, even though じゅうにち does
not begin with とお; the digit-by-digit rule is never tried for it. -/
theorem c4_ten_special_refuted :
    map_naive "10日".data "じゅうにち".data = .value
      [⟨[⟨"10".data, some "とお".data⟩, ⟨"日".data, some "うにち".data⟩], 2⟩]
    ∧ "とお".data.isPrefixOf "じゅうにち".data = false :=
  ⟨rfl, rfl⟩

/-- C5 (refuted): with zero surviving candidates the repeat-marker arm
returns success with an empty forest (the sub-problem reached from
map 日々あ/ひびび after 日 consumes ひ), while the Ideograph arm returns
absence on the analogous sub-problem. -/
theorem c5_repeat_marker_refuted :
    map_inner [Segment.other "々".data, Segment.kana "あ".data] "びび".data
        (some []) (some "日".data) true = .value (some .nil)
    ∧ map_inner [Segment.kanji "日".data, Segment.kana "あ".data] "びび".data
        (some []) none true = .value none :=
  ⟨rfl, rfl⟩

/-- C6 (refuted): ナー versus なあ satisfies the claim's hypotheses (ナ/な
are 96 code points apart, and あ is in the a-family of the preceding な),
yet kana_equivalent rejects the pair: after the vowel-lengthening check the
loop falls through to the code-point comparison, which ー against あ fails.
The vowel-family table itself would accept, as the second conjunct shows. -/
theorem c6_extension_refuted :
    kana_equivalent "ナー".data "なあ".data = false
    ∧ is_extension 'な' 'あ' = true :=
  ⟨rfl, rfl⟩

/-- C7 (confirmed): check_kanji_accuracy is absent exactly on a missing
dictionary entry, and otherwise grades by the first matching rule in the
order kana-equivalent, mutation (if eligible), doubling (if eligible),
inaccurate. -/
theorem c7_check_accuracy_priority :
    (∀ (cand : List Char) (mr ms : Bool), check_kanji_accuracy none cand mr ms = none)
    ∧ ∀ (krs : List (List Char)) (cand : List Char) (mr ms : Bool),
        check_kanji_accuracy (some krs) cand mr ms =
          some (if ∃ kr ∈ krs, kana_equivalent kr cand = true then KanjiAccuracy.Accurate
            else if mr = true ∧ ∃ kr ∈ krs, rendaku_equivalent kr cand = true then
              KanjiAccuracy.AccurateWithRendaku
            else if ms = true ∧ ∃ kr ∈ krs, sokuonbin_equivalent kr cand = true then
              KanjiAccuracy.AccurateWithSokuonbin
            else KanjiAccuracy.Inaccurate) := by
  refine ⟨fun cand mr ms => rfl, fun krs cand mr ms => ?_⟩
  simp only [check_kanji_accuracy, List.any_eq_true, Bool.and_eq_true]
  split_ifs <;> rfl

/-- C8 (confirmed): every flattened sequence's integer accuracy is the sum,
over the nodes of a root-to-leaf path producing it, of the grade-to-score
mapping (+2 accurate, +1 rendaku or sokuonbin, -2 inaccurate, 0 absent). -/
theorem c8_accuracy_path_sum (nl : NodeList) (f : Furigana)
    (hf : f ∈ from_tree_inner nl) :
    ∃ p, IsPath nl p ∧ f.furigana = path_segments p ∧ f.accuracy = path_score p :=
  from_tree_path nl f hf

/-- C8 (witness): the accuracy law instantiated on a concrete two-node
forest. -/
theorem c8_accuracy_path_sum_witness :
    (⟨[⟨"日".data, some "ひ".data⟩, ⟨"に".data, none⟩], 2⟩ : Furigana) ∈
      from_tree_inner (NodeList.cons
        (.mk (.kanji "日".data) "ひ".data
          (NodeList.cons (.mk (.kana "に".data) "に".data .nil none) .nil)
          (some .Accurate)) .nil)
    ∧ ∃ p,
      IsPath (NodeList.cons
        (.mk (.kanji "日".data) "ひ".data
          (NodeList.cons (.mk (.kana "に".data) "に".data .nil none) .nil)
          (some .Accurate)) .nil) p
      ∧ (⟨[⟨"日".data, some "ひ".data⟩, ⟨"に".data, none⟩], 2⟩ : Furigana).furigana
          = path_segments p
      ∧ (⟨[⟨"日".data, some "ひ".data⟩, ⟨"に".data, none⟩], 2⟩ : Furigana).accuracy
          = path_score p :=
  ⟨by decide, c8_accuracy_path_sum _ _ (by decide)⟩

/-- C9 (confirmed): both segmenters yield non-empty segments whose inner
substrings concatenate to exactly the input text; determinism is
definitional in this pure embedding. -/
theorem c9_segmentation_coverage (text : List Char) :
    (inner_concat (CoarseSegmentation text) = text
      ∧ ∀ s ∈ CoarseSegmentation text, s.inner ≠ [])
    ∧ (inner_concat (FineSegmentation text) = text
      ∧ ∀ s ∈ FineSegmentation text, s.inner ≠ [])
    ∧ CoarseSegmentation text = CoarseSegmentation text
    ∧ FineSegmentation text = FineSegmentation text :=
  ⟨coarse_covers text, fine_covers text, rfl, rfl⟩

/-- C10 (confirmed): on an all-kana text (including the empty text) both
entry points return exactly one sequence of accuracy 1 pairing the whole
text with an absent reading, for every reading argument and dictionary; the
result does not mention the reading, so the reading is never inspected. -/
theorem c10_kana_shortcut (text reading : List Char) (d : Dict)
    (h : text.all is_kana = true) :
    map_naive text reading = .value [⟨[⟨text, none⟩], 1⟩]
    ∧ map text reading d = .value [⟨[⟨text, none⟩], 1⟩] := by
  constructor
  · rw [map_naive, if_pos h]
  · rw [map, if_pos h]

/-- C10 (witness): the kana shortcut instantiated on かな with a reading
that is incompatible with the text. -/
theorem c10_kana_shortcut_witness :
    "かな".data.all is_kana = true
    ∧ map_naive "かな".data "xyz".data = .value [⟨[⟨"かな".data, none⟩], 1⟩]
    ∧ map "かな".data "xyz".data [] = .value [⟨[⟨"かな".data, none⟩], 1⟩] :=
  ⟨by decide, (c10_kana_shortcut "かな".data "xyz".data [] (by decide)).1,
   (c10_kana_shortcut "かな".data "xyz".data [] (by decide)).2⟩

end Furi
